import Mathlib

set_option maxRecDepth 10000

/-!
Verification of the arithmetic kernel of `fpdec-core` (file
`fpdec-core/src/lib.rs`) and of the `num_traits`/`into_int` glue of the
`fpdec` crate.  Machine integers (`u128`, `i128`) are embedded as `Nat`
resp. `Int`; an explicit `% 2 ^ 128` appears exactly where the source
relies on wrapping machine semantics and a proof of in-range behaviour is
not available at that point.  A Rust panic (division by zero, overflow of
a native division) is embedded as `none` in an outer `Option` layer.
-/

/-- Embedding of `u128_hi` from `fpdec-core/src/lib.rs`: `u >> 64`. -/
def u128_hi (u : Nat) : Nat := u >>> 64

/-- Embedding of `u128_lo` from `fpdec-core/src/lib.rs`: `u & 0xffffffffffffffff`. -/
def u128_lo (u : Nat) : Nat := u &&& 0xffffffffffffffff

theorem u128_hi_eq (u : Nat) : u128_hi u = u / 2 ^ 64 := by
  simp [u128_hi, Nat.shiftRight_eq_div_pow]

theorem u128_lo_eq (u : Nat) : u128_lo u = u % 2 ^ 64 := by
  show u &&& 0xffffffffffffffff = u % 2 ^ 64
  have h : (0xffffffffffffffff : Nat) = 2 ^ 64 - 1 := by norm_num
  rw [h, Nat.and_pow_two_sub_one_eq_mod]

/-- Embedding of `u128_mul_u128` from `fpdec-core/src/lib.rs`.  The source
reuses one mutable accumulator `t`; the three successive values of `t` are
named `t1`, `t2`, `t3` here.  All operations are performed on plain `Nat`;
the proof `u128_mul_u128_spec` shows that for arguments `< 2 ^ 128` every
intermediate value stays below `2 ^ 128`, so the embedding agrees with the
`u128` machine arithmetic of the source. -/
def u128_mul_u128 (x y : Nat) : Nat × Nat :=
  let xh := u128_hi x
  let xl := u128_lo x
  let yh := u128_hi y
  let yl := u128_lo y
  let t1 := xl * yl
  let rl1 := u128_lo t1
  let t2 := xl * yh + u128_hi t1
  let rh1 := u128_hi t2
  let t3 := xh * yl + u128_lo t2
  let rl := rl1 + u128_lo t3 * 2 ^ 64
  let rh := rh1 + xh * yh + u128_hi t3
  (rh, rl)

theorem u128_mul_u128_spec (x y : Nat) (hx : x < 2 ^ 128) (hy : y < 2 ^ 128) :
    (u128_mul_u128 x y).1 * 2 ^ 128 + (u128_mul_u128 x y).2 = x * y ∧
    (u128_mul_u128 x y).1 < 2 ^ 128 ∧ (u128_mul_u128 x y).2 < 2 ^ 128 := by
  simp only [u128_mul_u128, u128_hi_eq, u128_lo_eq]
  have hxs : 2 ^ 64 * (x / 2 ^ 64) + x % 2 ^ 64 = x := Nat.div_add_mod x (2 ^ 64)
  have hys : 2 ^ 64 * (y / 2 ^ 64) + y % 2 ^ 64 = y := Nat.div_add_mod y (2 ^ 64)
  have hexp : x * y =
      (x / 2 ^ 64) * (y / 2 ^ 64) * 2 ^ 128 +
      (x / 2 ^ 64) * (y % 2 ^ 64) * 2 ^ 64 +
      (x % 2 ^ 64) * (y / 2 ^ 64) * 2 ^ 64 +
      (x % 2 ^ 64) * (y % 2 ^ 64) := by
    conv_lhs => rw [← hxs, ← hys]
    ring
  have hxh : x / 2 ^ 64 < 2 ^ 64 := by omega
  have hyh : y / 2 ^ 64 < 2 ^ 64 := by omega
  have hxl : x % 2 ^ 64 < 2 ^ 64 := Nat.mod_lt _ (by norm_num)
  have hyl : y % 2 ^ 64 < 2 ^ 64 := Nat.mod_lt _ (by norm_num)
  have hA : (x / 2 ^ 64) * (y / 2 ^ 64) ≤ (2 ^ 64 - 1) * (2 ^ 64 - 1) :=
    Nat.mul_le_mul (by omega) (by omega)
  have hB : (x / 2 ^ 64) * (y % 2 ^ 64) ≤ (2 ^ 64 - 1) * (2 ^ 64 - 1) :=
    Nat.mul_le_mul (by omega) (by omega)
  have hC : (x % 2 ^ 64) * (y / 2 ^ 64) ≤ (2 ^ 64 - 1) * (2 ^ 64 - 1) :=
    Nat.mul_le_mul (by omega) (by omega)
  have hD : (x % 2 ^ 64) * (y % 2 ^ 64) ≤ (2 ^ 64 - 1) * (2 ^ 64 - 1) :=
    Nat.mul_le_mul (by omega) (by omega)
  generalize (x / 2 ^ 64) * (y / 2 ^ 64) = A at *
  generalize (x / 2 ^ 64) * (y % 2 ^ 64) = B at *
  generalize (x % 2 ^ 64) * (y / 2 ^ 64) = C at *
  generalize (x % 2 ^ 64) * (y % 2 ^ 64) = D at *
  omega

/-- Embedding of `u256_idiv_u64` from `fpdec-core/src/lib.rs`: divide
`x = xh * 2 ^ 128 + xl` by a divisor fitting in 64 bits, returning the new
`(xh, xl)` together with the remainder.  A `none` result embeds the Rust
panic on division by zero (the source performs `th % y` with `y == 0`). -/
def u256_idiv_u64 (xh xl y : Nat) : Option (Nat × Nat × Nat) :=
  if y = 1 then some (xh, xl, 0)
  else if y = 0 then none
  else
    let th := u128_hi xh
    let r1 := th % y
    let tl := (r1 <<< 64) + u128_lo xh
    let xh' := ((th / y) <<< 64) + tl / y
    let r2 := tl % y
    let th2 := (r2 <<< 64) + u128_hi xl
    let r3 := th2 % y
    let tl2 := (r3 <<< 64) + u128_lo xl
    let xl' := ((th2 / y) <<< 64) + tl2 / y
    some (xh', xl', tl2 % y)

theorem u256_idiv_u64_spec (xh xl y : Nat) (hy : 0 < y) (hy64 : y < 2 ^ 64)
    (hxh : xh < 2 ^ 128) (hxl : xl < 2 ^ 128) :
    ∃ qh ql, u256_idiv_u64 xh xl y =
        some (qh, ql, (xh * 2 ^ 128 + xl) % y) ∧
      qh * 2 ^ 128 + ql = (xh * 2 ^ 128 + xl) / y ∧
      qh < 2 ^ 128 ∧ ql < 2 ^ 128 := by
  by_cases h1 : y = 1
  · subst h1
    exact ⟨xh, xl, by simp [u256_idiv_u64, Nat.mod_one], by simp, hxh, hxl⟩
  · have hy0 : ¬ y = 0 := by omega
    simp only [u256_idiv_u64, if_neg h1, if_neg hy0, u128_hi_eq, u128_lo_eq,
      Nat.shiftLeft_eq]
    set w3 := xh / 2 ^ 64 with hw3
    set w2 := xh % 2 ^ 64 with hw2
    set w1 := xl / 2 ^ 64 with hw1
    set w0 := xl % 2 ^ 64 with hw0
    set tl := w3 % y * 2 ^ 64 + w2 with htl
    set th2 := tl % y * 2 ^ 64 + w1 with hth2
    set tl2 := th2 % y * 2 ^ 64 + w0 with htl2
    have e3 : y * (w3 / y) + w3 % y = w3 := Nat.div_add_mod w3 y
    have e2 : y * (tl / y) + tl % y = tl := Nat.div_add_mod tl y
    have e1 : y * (th2 / y) + th2 % y = th2 := Nat.div_add_mod th2 y
    have e0 : y * (tl2 / y) + tl2 % y = tl2 := Nat.div_add_mod tl2 y
    have hrem : tl2 % y < y := Nat.mod_lt _ hy
    have hx : xh * 2 ^ 128 + xl = tl2 % y +
        ((w3 / y * 2 ^ 64 + tl / y) * 2 ^ 128 +
          (th2 / y * 2 ^ 64 + tl2 / y)) * y := by
      have hxh' : xh = w3 * 2 ^ 64 + w2 := by omega
      have hxl' : xl = w1 * 2 ^ 64 + w0 := by omega
      calc xh * 2 ^ 128 + xl
          = (w3 * 2 ^ 64 + w2) * 2 ^ 128 + (w1 * 2 ^ 64 + w0) := by
            rw [← hxh', ← hxl']
        _ = (y * (w3 / y) + w3 % y) * 2 ^ 192 + w2 * 2 ^ 128 +
              w1 * 2 ^ 64 + w0 := by rw [e3]; ring
        _ = y * (w3 / y) * 2 ^ 192 + tl * 2 ^ 128 + w1 * 2 ^ 64 + w0 := by
            rw [htl]; ring
        _ = y * (w3 / y) * 2 ^ 192 + (y * (tl / y) + tl % y) * 2 ^ 128 +
              w1 * 2 ^ 64 + w0 := by rw [e2]
        _ = y * (w3 / y) * 2 ^ 192 + y * (tl / y) * 2 ^ 128 +
              th2 * 2 ^ 64 + w0 := by rw [hth2]; ring
        _ = y * (w3 / y) * 2 ^ 192 + y * (tl / y) * 2 ^ 128 +
              (y * (th2 / y) + th2 % y) * 2 ^ 64 + w0 := by rw [e1]
        _ = y * (w3 / y) * 2 ^ 192 + y * (tl / y) * 2 ^ 128 +
              y * (th2 / y) * 2 ^ 64 + tl2 := by rw [htl2]; ring
        _ = y * (w3 / y) * 2 ^ 192 + y * (tl / y) * 2 ^ 128 +
              y * (th2 / y) * 2 ^ 64 + (y * (tl2 / y) + tl2 % y) := by rw [e0]
        _ = tl2 % y + ((w3 / y * 2 ^ 64 + tl / y) * 2 ^ 128 +
              (th2 / y * 2 ^ 64 + tl2 / y)) * y := by ring
    have hmod : (xh * 2 ^ 128 + xl) % y = tl2 % y := by
      rw [hx, Nat.add_mul_mod_self_right, Nat.mod_eq_of_lt hrem]
    have hdiv : (xh * 2 ^ 128 + xl) / y =
        (w3 / y * 2 ^ 64 + tl / y) * 2 ^ 128 +
          (th2 / y * 2 ^ 64 + tl2 / y) := by
      rw [hx, Nat.add_mul_div_right _ _ hy, Nat.div_eq_of_lt hrem, Nat.zero_add]
    have hd3 : w3 / y < 2 ^ 64 := by
      have := Nat.div_le_self w3 y
      omega
    have hm3 : w3 % y < y := Nat.mod_lt _ hy
    have hd2 : tl / y < 2 ^ 64 := by
      apply Nat.div_lt_of_lt_mul
      rw [htl]
      omega
    have hm2 : tl % y < y := Nat.mod_lt _ hy
    have hd1 : th2 / y < 2 ^ 64 := by
      apply Nat.div_lt_of_lt_mul
      rw [hth2]
      omega
    have hm1 : th2 % y < y := Nat.mod_lt _ hy
    have hd0 : tl2 / y < 2 ^ 64 := by
      apply Nat.div_lt_of_lt_mul
      rw [htl2]
      omega
    exact ⟨w3 / y * 2 ^ 64 + tl / y, th2 / y * 2 ^ 64 + tl2 / y,
      by rw [hmod], hdiv.symm, by omega, by omega⟩

/-- Embedding of the lookup table `IDX_MAP` in `u128_msb`
(`fpdec-core/src/lib.rs`). -/
def IDX_MAP : Array Nat := #[0, 1, 2, 2, 3, 3, 3, 3, 4, 4, 4, 4, 4, 4, 4, 4]

/-- Embedding of `u128_msb` from `fpdec-core/src/lib.rs`: index of the most
significant set bit.  The source `debug_assert`s that the argument is
non-zero; every use below is guarded accordingly.  The mutable pair
`(n, i)` of the source becomes the chained pairs `p1` … `p5`. -/
def u128_msb (i : Nat) : Nat :=
  let p1 := if i &&& 0xffffffffffffffff0000000000000000 ≠ 0
    then (64, i >>> 64) else (0, i)
  let p2 := if p1.2 &&& 0x0000000000000000ffffffff00000000 ≠ 0
    then (p1.1 + 32, p1.2 >>> 32) else p1
  let p3 := if p2.2 &&& 0x000000000000000000000000ffff0000 ≠ 0
    then (p2.1 + 16, p2.2 >>> 16) else p2
  let p4 := if p3.2 &&& 0x0000000000000000000000000000ff00 ≠ 0
    then (p3.1 + 8, p3.2 >>> 8) else p3
  let p5 := if p4.2 &&& 0x000000000000000000000000000000f0 ≠ 0
    then (p4.1 + 4, p4.2 >>> 4) else p4
  p5.1 + IDX_MAP[p5.2]! - 1

theorem and_high_mask (x k m : Nat) :
    x &&& 2 ^ k * (2 ^ m - 1) = 2 ^ k * (x / 2 ^ k % 2 ^ m) := by
  apply Nat.eq_of_testBit_eq
  intro j
  rcases Nat.lt_or_ge j k with hj | hj
  · have h1 : ¬ j ≥ k := by omega
    have h2 : (2 ^ k * (2 ^ m - 1)).testBit j = false := by
      have := Nat.testBit_mul_pow_two (i := k) (a := 2 ^ m - 1) (j := j)
      simp [this, h1]
    have h3 : (2 ^ k * (x / 2 ^ k % 2 ^ m)).testBit j = false := by
      have := Nat.testBit_mul_pow_two (i := k) (a := x / 2 ^ k % 2 ^ m) (j := j)
      simp [this, h1]
    simp [Nat.testBit_and, h2, h3]
  · have h1 : j ≥ k := hj
    have h2 : (2 ^ k * (2 ^ m - 1)).testBit j = decide (j - k < m) := by
      have := Nat.testBit_mul_pow_two (i := k) (a := 2 ^ m - 1) (j := j)
      simp [this, h1]
    have h3 : (2 ^ k * (x / 2 ^ k % 2 ^ m)).testBit j
        = ((x / 2 ^ k % 2 ^ m).testBit (j - k)) := by
      have := Nat.testBit_mul_pow_two (i := k) (a := x / 2 ^ k % 2 ^ m) (j := j)
      simp [this, h1]
    have h4 : (x / 2 ^ k % 2 ^ m).testBit (j - k)
        = (decide (j - k < m) && (x / 2 ^ k).testBit (j - k)) := by
      simp [Nat.testBit_mod_two_pow]
    have h5 : (x / 2 ^ k).testBit (j - k) = x.testBit j := by
      rw [← Nat.shiftRight_eq_div_pow, Nat.testBit_shiftRight]
      congr 1
      omega
    simp only [Nat.testBit_and, h2, h3, h4, h5]
    cases hx : x.testBit j <;> simp [hx]

theorem high_half_test (h x : Nat) (hx : x < 2 ^ h * 2 ^ h) :
    (x &&& 2 ^ h * (2 ^ h - 1) ≠ 0) ↔ 2 ^ h ≤ x := by
  rw [and_high_mask]
  have hpos : 0 < 2 ^ h := Nat.pos_pow_of_pos _ (by norm_num)
  have hdiv : x / 2 ^ h < 2 ^ h := Nat.div_lt_of_lt_mul (by omega)
  rw [Nat.mod_eq_of_lt hdiv]
  constructor
  · intro hne
    by_contra hlt
    push_neg at hlt
    have h0 : x / 2 ^ h = 0 := Nat.div_eq_of_lt hlt
    simp [h0] at hne
  · intro hle
    have h1 : 0 < x / 2 ^ h := Nat.div_pos hle hpos
    exact Nat.mul_ne_zero (by omega) (by omega)

theorem msb_step_true (i x n w : Nat) (hx0 : 0 < x) (hxw : x < 2 ^ w * 2 ^ w)
    (hhi : 2 ^ w ≤ x) (hlow : x * 2 ^ n ≤ i) (hhigh : i < (x + 1) * 2 ^ n) :
    0 < x >>> w ∧ x >>> w < 2 ^ w ∧ (x >>> w) * 2 ^ (n + w) ≤ i ∧
      i < (x >>> w + 1) * 2 ^ (n + w) := by
  rw [Nat.shiftRight_eq_div_pow]
  have hw : 0 < 2 ^ w := Nat.pos_pow_of_pos _ (by norm_num)
  have h1 : 0 < x / 2 ^ w := Nat.div_pos hhi hw
  have h2 : x / 2 ^ w < 2 ^ w := Nat.div_lt_of_lt_mul hxw
  have hdm : 2 ^ w * (x / 2 ^ w) + x % 2 ^ w = x := Nat.div_add_mod x (2 ^ w)
  have hmod : x % 2 ^ w < 2 ^ w := Nat.mod_lt _ hw
  have e : 2 ^ (n + w) = 2 ^ n * 2 ^ w := pow_add 2 n w
  refine ⟨h1, h2, ?_, ?_⟩
  · have estep : (x / 2 ^ w) * 2 ^ (n + w) = 2 ^ w * (x / 2 ^ w) * 2 ^ n := by
      rw [e]; ring
    rw [estep]
    calc 2 ^ w * (x / 2 ^ w) * 2 ^ n
        ≤ x * 2 ^ n := Nat.mul_le_mul_right _ (by omega)
      _ ≤ i := hlow
  · calc i < (x + 1) * 2 ^ n := hhigh
      _ ≤ (2 ^ w * (x / 2 ^ w) + 2 ^ w) * 2 ^ n := Nat.mul_le_mul_right _ (by omega)
      _ = (x / 2 ^ w + 1) * 2 ^ (n + w) := by rw [e]; ring

theorem msb_final (i n v L : Nat) (h1 : 2 ^ L ≤ v) (h2 : v < 2 ^ (L + 1))
    (hlow : v * 2 ^ n ≤ i) (hhigh : i < (v + 1) * 2 ^ n) :
    2 ^ (n + L) ≤ i ∧ i < 2 ^ (n + L + 1) := by
  have e1 : 2 ^ (n + L) = 2 ^ L * 2 ^ n := by rw [pow_add]; ring
  have e2 : 2 ^ (n + L + 1) = 2 ^ (L + 1) * 2 ^ n := by
    rw [show n + L + 1 = n + (L + 1) from by omega, pow_add]; ring
  constructor
  · rw [e1]
    calc 2 ^ L * 2 ^ n ≤ v * 2 ^ n := Nat.mul_le_mul_right _ h1
      _ ≤ i := hlow
  · rw [e2]
    calc i < (v + 1) * 2 ^ n := hhigh
      _ ≤ 2 ^ (L + 1) * 2 ^ n := Nat.mul_le_mul_right _ h2

theorem u128_msb_spec (i : Nat) (hi : 0 < i) (hi128 : i < 2 ^ 128) :
    2 ^ u128_msb i ≤ i ∧ i < 2 ^ (u128_msb i + 1) := by
  have hmask1 : (0xffffffffffffffff0000000000000000 : Nat)
      = 2 ^ 64 * (2 ^ 64 - 1) := by norm_num
  have hmask2 : (0x0000000000000000ffffffff00000000 : Nat)
      = 2 ^ 32 * (2 ^ 32 - 1) := by norm_num
  have hmask3 : (0x000000000000000000000000ffff0000 : Nat)
      = 2 ^ 16 * (2 ^ 16 - 1) := by norm_num
  have hmask4 : (0x0000000000000000000000000000ff00 : Nat)
      = 2 ^ 8 * (2 ^ 8 - 1) := by norm_num
  have hmask5 : (0x000000000000000000000000000000f0 : Nat)
      = 2 ^ 4 * (2 ^ 4 - 1) := by norm_num
  simp only [u128_msb]
  set P1 := (if i &&& 0xffffffffffffffff0000000000000000 ≠ 0
    then ((64 : Nat), i >>> 64) else (0, i)) with hP1def
  obtain ⟨n1, x1, hP1, h1pos, h1lt, h1low, h1high⟩ :
      ∃ n1 x1, P1 = (n1, x1) ∧ 0 < x1 ∧ x1 < 2 ^ 64 ∧
        x1 * 2 ^ n1 ≤ i ∧ i < (x1 + 1) * 2 ^ n1 := by
    by_cases hc : i &&& 0xffffffffffffffff0000000000000000 ≠ 0
    · rw [hmask1] at hc
      have hhi := (high_half_test 64 i (by omega)).mp hc
      have := msb_step_true i i 0 64 hi (by omega) hhi (by simp) (by simp)
      exact ⟨64, i >>> 64, by rw [hP1def, if_pos (by rwa [hmask1])],
        this.1, this.2.1, by simpa using this.2.2.1, by simpa using this.2.2.2⟩
    · rw [hmask1] at hc
      have hlt : i < 2 ^ 64 := by
        by_contra hge
        exact hc ((high_half_test 64 i (by omega)).mpr (by omega))
      exact ⟨0, i, by rw [hP1def, if_neg (by rwa [hmask1])],
        hi, hlt, by simp, by simp⟩
  rw [hP1]
  simp only [Prod.fst, Prod.snd]
  set P2 := (if x1 &&& 0x0000000000000000ffffffff00000000 ≠ 0
    then (n1 + 32, x1 >>> 32) else (n1, x1)) with hP2def
  obtain ⟨n2, x2, hP2, h2pos, h2lt, h2low, h2high⟩ :
      ∃ n2 x2, P2 = (n2, x2) ∧ 0 < x2 ∧ x2 < 2 ^ 32 ∧
        x2 * 2 ^ n2 ≤ i ∧ i < (x2 + 1) * 2 ^ n2 := by
    by_cases hc : x1 &&& 0x0000000000000000ffffffff00000000 ≠ 0
    · rw [hmask2] at hc
      have hhi := (high_half_test 32 x1 (by omega)).mp hc
      have := msb_step_true i x1 n1 32 h1pos (by omega) hhi h1low h1high
      exact ⟨n1 + 32, x1 >>> 32, by rw [hP2def, if_pos (by rwa [hmask2])],
        this.1, this.2.1, this.2.2.1, this.2.2.2⟩
    · rw [hmask2] at hc
      have hlt : x1 < 2 ^ 32 := by
        by_contra hge
        exact hc ((high_half_test 32 x1 (by omega)).mpr (by omega))
      exact ⟨n1, x1, by rw [hP2def, if_neg (by rwa [hmask2])],
        h1pos, hlt, h1low, h1high⟩
  rw [hP2]
  simp only [Prod.fst, Prod.snd]
  set P3 := (if x2 &&& 0x000000000000000000000000ffff0000 ≠ 0
    then (n2 + 16, x2 >>> 16) else (n2, x2)) with hP3def
  obtain ⟨n3, x3, hP3, h3pos, h3lt, h3low, h3high⟩ :
      ∃ n3 x3, P3 = (n3, x3) ∧ 0 < x3 ∧ x3 < 2 ^ 16 ∧
        x3 * 2 ^ n3 ≤ i ∧ i < (x3 + 1) * 2 ^ n3 := by
    by_cases hc : x2 &&& 0x000000000000000000000000ffff0000 ≠ 0
    · rw [hmask3] at hc
      have hhi := (high_half_test 16 x2 (by omega)).mp hc
      have := msb_step_true i x2 n2 16 h2pos (by omega) hhi h2low h2high
      exact ⟨n2 + 16, x2 >>> 16, by rw [hP3def, if_pos (by rwa [hmask3])],
        this.1, this.2.1, this.2.2.1, this.2.2.2⟩
    · rw [hmask3] at hc
      have hlt : x2 < 2 ^ 16 := by
        by_contra hge
        exact hc ((high_half_test 16 x2 (by omega)).mpr (by omega))
      exact ⟨n2, x2, by rw [hP3def, if_neg (by rwa [hmask3])],
        h2pos, hlt, h2low, h2high⟩
  rw [hP3]
  simp only [Prod.fst, Prod.snd]
  set P4 := (if x3 &&& 0x0000000000000000000000000000ff00 ≠ 0
    then (n3 + 8, x3 >>> 8) else (n3, x3)) with hP4def
  obtain ⟨n4, x4, hP4, h4pos, h4lt, h4low, h4high⟩ :
      ∃ n4 x4, P4 = (n4, x4) ∧ 0 < x4 ∧ x4 < 2 ^ 8 ∧
        x4 * 2 ^ n4 ≤ i ∧ i < (x4 + 1) * 2 ^ n4 := by
    by_cases hc : x3 &&& 0x0000000000000000000000000000ff00 ≠ 0
    · rw [hmask4] at hc
      have hhi := (high_half_test 8 x3 (by omega)).mp hc
      have := msb_step_true i x3 n3 8 h3pos (by omega) hhi h3low h3high
      exact ⟨n3 + 8, x3 >>> 8, by rw [hP4def, if_pos (by rwa [hmask4])],
        this.1, this.2.1, this.2.2.1, this.2.2.2⟩
    · rw [hmask4] at hc
      have hlt : x3 < 2 ^ 8 := by
        by_contra hge
        exact hc ((high_half_test 8 x3 (by omega)).mpr (by omega))
      exact ⟨n3, x3, by rw [hP4def, if_neg (by rwa [hmask4])],
        h3pos, hlt, h3low, h3high⟩
  rw [hP4]
  simp only [Prod.fst, Prod.snd]
  set P5 := (if x4 &&& 0x000000000000000000000000000000f0 ≠ 0
    then (n4 + 4, x4 >>> 4) else (n4, x4)) with hP5def
  obtain ⟨n5, x5, hP5, h5pos, h5lt, h5low, h5high⟩ :
      ∃ n5 x5, P5 = (n5, x5) ∧ 0 < x5 ∧ x5 < 2 ^ 4 ∧
        x5 * 2 ^ n5 ≤ i ∧ i < (x5 + 1) * 2 ^ n5 := by
    by_cases hc : x4 &&& 0x000000000000000000000000000000f0 ≠ 0
    · rw [hmask5] at hc
      have hhi := (high_half_test 4 x4 (by omega)).mp hc
      have := msb_step_true i x4 n4 4 h4pos (by omega) hhi h4low h4high
      exact ⟨n4 + 4, x4 >>> 4, by rw [hP5def, if_pos (by rwa [hmask5])],
        this.1, this.2.1, this.2.2.1, this.2.2.2⟩
    · rw [hmask5] at hc
      have hlt : x4 < 2 ^ 4 := by
        by_contra hge
        exact hc ((high_half_test 4 x4 (by omega)).mpr (by omega))
      exact ⟨n4, x4, by rw [hP5def, if_neg (by rwa [hmask5])],
        h4pos, hlt, h4low, h4high⟩
  rw [hP5]
  simp only [Prod.fst, Prod.snd]
  have h16 : x5 < 16 := by omega
  interval_cases x5
  · exact msb_final i n5 1 0 (by norm_num) (by norm_num) h5low h5high
  · exact msb_final i n5 2 1 (by norm_num) (by norm_num) h5low h5high
  · exact msb_final i n5 3 1 (by norm_num) (by norm_num) h5low h5high
  · exact msb_final i n5 4 2 (by norm_num) (by norm_num) h5low h5high
  · exact msb_final i n5 5 2 (by norm_num) (by norm_num) h5low h5high
  · exact msb_final i n5 6 2 (by norm_num) (by norm_num) h5low h5high
  · exact msb_final i n5 7 2 (by norm_num) (by norm_num) h5low h5high
  · exact msb_final i n5 8 3 (by norm_num) (by norm_num) h5low h5high
  · exact msb_final i n5 9 3 (by norm_num) (by norm_num) h5low h5high
  · exact msb_final i n5 10 3 (by norm_num) (by norm_num) h5low h5high
  · exact msb_final i n5 11 3 (by norm_num) (by norm_num) h5low h5high
  · exact msb_final i n5 12 3 (by norm_num) (by norm_num) h5low h5high
  · exact msb_final i n5 13 3 (by norm_num) (by norm_num) h5low h5high
  · exact msb_final i n5 14 3 (by norm_num) (by norm_num) h5low h5high
  · exact msb_final i n5 15 3 (by norm_num) (by norm_num) h5low h5high

/-- Embedding of the quotient-digit correction loop appearing twice in
`u256_idiv_u128_special` (`fpdec-core/src/lib.rs`):

`while q >= B || q * yn0 > rhat * B + w { q -= 1; rhat += yn1; if rhat >= B { break } }`

`w` is the next dividend half-word (`xn1` for the first loop, `xn0` for the
second).  The loop is phrased as structural recursion on `q`; at `q = 0`
both loop conditions are false, so the `0` case returning directly agrees
with the source. -/
def q_hat_loop (yn1 yn0 w : Nat) : Nat → Nat → Nat × Nat
  | 0, rhat => (0, rhat)
  | q + 1, rhat =>
    if 2 ^ 64 ≤ q + 1 ∨ rhat * 2 ^ 64 + w < (q + 1) * yn0 then
      let rhat' := rhat + yn1
      if 2 ^ 64 ≤ rhat' then (q, rhat')
      else q_hat_loop yn1 yn0 w q rhat'
    else (q + 1, rhat)

theorem q_hat_loop_spec (yn1 yn0 w a : Nat)
    (hyn1lo : 2 ^ 63 ≤ yn1) (hyn1hi : yn1 < 2 ^ 64) (hyn0 : yn0 < 2 ^ 64)
    (hw : w < 2 ^ 64) (ha : a < yn1 * 2 ^ 64 + yn0) :
    ∀ q rhat, q * yn1 + rhat = a →
      a * 2 ^ 64 + w < (q + 1) * (yn1 * 2 ^ 64 + yn0) →
      q ≤ 2 ^ 64 + 1 →
      (q_hat_loop yn1 yn0 w q rhat).1
        = (a * 2 ^ 64 + w) / (yn1 * 2 ^ 64 + yn0) := by
  have hv : 0 < yn1 * 2 ^ 64 + yn0 := by positivity
  have hu_lt : a * 2 ^ 64 + w < (yn1 * 2 ^ 64 + yn0) * 2 ^ 64 := by
    have h1 : a + 1 ≤ yn1 * 2 ^ 64 + yn0 := ha
    calc a * 2 ^ 64 + w < a * 2 ^ 64 + 2 ^ 64 := by omega
      _ = (a + 1) * 2 ^ 64 := by ring
      _ ≤ (yn1 * 2 ^ 64 + yn0) * 2 ^ 64 := Nat.mul_le_mul_right _ h1
  intro q
  induction q with
  | zero =>
    intro rhat hsum hupper _
    simp only [q_hat_loop]
    symm
    apply Nat.div_eq_of_lt_le
    · simpa using hupper.le.trans (le_refl _) |>.trans' (by simp)
    · simpa using hupper
  | succ q ih =>
    intro rhat hsum hupper hqbound
    simp only [q_hat_loop]
    by_cases hcond : 2 ^ 64 ≤ q + 1 ∨ rhat * 2 ^ 64 + w < (q + 1) * yn0
    · rw [if_pos hcond]
      -- after the decrement the upper bound still holds
      have hupper' : a * 2 ^ 64 + w < (q + 1) * (yn1 * 2 ^ 64 + yn0) := by
        rcases hcond with hbig | hcross
        · calc a * 2 ^ 64 + w < (yn1 * 2 ^ 64 + yn0) * 2 ^ 64 := hu_lt
            _ ≤ (yn1 * 2 ^ 64 + yn0) * (q + 1) := Nat.mul_le_mul_left _ hbig
            _ = (q + 1) * (yn1 * 2 ^ 64 + yn0) := by ring
        · have hexp : (q + 1) * (yn1 * 2 ^ 64 + yn0)
              = (q + 1) * yn1 * 2 ^ 64 + (q + 1) * yn0 := by ring
          have hsum' : (q + 1) * yn1 + rhat = a := hsum
          rw [hexp]
          have : a * 2 ^ 64 = (q + 1) * yn1 * 2 ^ 64 + rhat * 2 ^ 64 := by
            rw [← hsum']; ring
          omega
      by_cases hbreak : 2 ^ 64 ≤ rhat + yn1
      · rw [if_pos hbreak]
        -- break: `q` is the exact quotient digit
        have hsum' : q * yn1 + (rhat + yn1) = a := by
          have : (q + 1) * yn1 = q * yn1 + yn1 := by ring
          omega
        have hlower : q * (yn1 * 2 ^ 64 + yn0) ≤ a * 2 ^ 64 + w := by
          have hexp : q * (yn1 * 2 ^ 64 + yn0)
              = q * yn1 * 2 ^ 64 + q * yn0 := by ring
          have hq64 : q ≤ 2 ^ 64 := by omega
          have hqyn0 : q * yn0 ≤ 2 ^ 64 * (2 ^ 64 - 1) :=
            Nat.mul_le_mul hq64 (by omega)
          have ha' : a * 2 ^ 64 = q * yn1 * 2 ^ 64 + (rhat + yn1) * 2 ^ 64 := by
            rw [← hsum']; ring
          have hrb : 2 ^ 64 * 2 ^ 64 ≤ (rhat + yn1) * 2 ^ 64 :=
            Nat.mul_le_mul_right _ hbreak
          rw [hexp]
          omega
        rw [show (q, rhat + yn1).1 = q from rfl]
        symm
        exact Nat.div_eq_of_lt_le hlower hupper'
      · rw [if_neg hbreak]
        have hsum' : q * yn1 + (rhat + yn1) = a := by
          have : (q + 1) * yn1 = q * yn1 + yn1 := by ring
          omega
        exact ih (rhat + yn1) hsum' hupper' (by omega)
    · rw [if_neg hcond]
      push_neg at hcond
      obtain ⟨hqlt, hcross⟩ := hcond
      have hlower : (q + 1) * (yn1 * 2 ^ 64 + yn0) ≤ a * 2 ^ 64 + w := by
        have hexp : (q + 1) * (yn1 * 2 ^ 64 + yn0)
            = (q + 1) * yn1 * 2 ^ 64 + (q + 1) * yn0 := by ring
        have ha' : a * 2 ^ 64 = (q + 1) * yn1 * 2 ^ 64 + rhat * 2 ^ 64 := by
          rw [← hsum]; ring
        rw [hexp]
        omega
      symm
      exact Nat.div_eq_of_lt_le hlower hupper

/-- Wrapping `u128` multiplication (`u128::wrapping_mul`). -/
def wmul (a b : Nat) : Nat := a * b % 2 ^ 128

/-- Wrapping `u128` addition (`u128::wrapping_add`). -/
def wadd (a b : Nat) : Nat := (a + b) % 2 ^ 128

/-- Wrapping `u128` subtraction (`u128::wrapping_sub`). -/
def wsub (a b : Nat) : Nat := (a % 2 ^ 128 + 2 ^ 128 - b % 2 ^ 128) % 2 ^ 128

theorem wsub_wadd_wmul_exact (x y b c d : Nat) (hle : c * d ≤ x * y + b)
    (hlt : x * y + b - c * d < 2 ^ 128) :
    wsub (wadd (wmul x y) b) (wmul c d) = x * y + b - c * d := by
  unfold wmul wadd wsub
  generalize x * y = P at *
  generalize c * d = Q at *
  omega

theorem div_sub_mul_eq_mod (u v : Nat) : u - u / v * v = u % v := by
  have h := Nat.div_add_mod u v
  have hc : u / v * v = v * (u / v) := Nat.mul_comm _ _
  omega

theorem q_init_upper (yn1 yn0 a w : Nat) (hyn1 : 0 < yn1) (hw : w < 2 ^ 64) :
    a * 2 ^ 64 + w < (a / yn1 + 1) * (yn1 * 2 ^ 64 + yn0) := by
  have hv0 : 0 < yn1 * 2 ^ 64 + yn0 := by positivity
  have h1 : (a * 2 ^ 64 + w) / (yn1 * 2 ^ 64 + yn0) * (yn1 * 2 ^ 64 + yn0)
      ≤ a * 2 ^ 64 + w := Nat.div_mul_le_self _ _
  have h2 : a * 2 ^ 64 + w <
      ((a * 2 ^ 64 + w) / (yn1 * 2 ^ 64 + yn0) + 1) * (yn1 * 2 ^ 64 + yn0) := by
    have hdm := Nat.div_add_mod (a * 2 ^ 64 + w) (yn1 * 2 ^ 64 + yn0)
    have hm : (a * 2 ^ 64 + w) % (yn1 * 2 ^ 64 + yn0) < yn1 * 2 ^ 64 + yn0 :=
      Nat.mod_lt _ hv0
    have he : ((a * 2 ^ 64 + w) / (yn1 * 2 ^ 64 + yn0) + 1) * (yn1 * 2 ^ 64 + yn0)
        = (yn1 * 2 ^ 64 + yn0) * ((a * 2 ^ 64 + w) / (yn1 * 2 ^ 64 + yn0))
          + (yn1 * 2 ^ 64 + yn0) := by ring
    omega
  have h3 : (a * 2 ^ 64 + w) / (yn1 * 2 ^ 64 + yn0) ≤ a / yn1 := by
    have ha1 : (a * 2 ^ 64 + w) / (yn1 * 2 ^ 64 + yn0) * yn1 * 2 ^ 64
        ≤ (a * 2 ^ 64 + w) / (yn1 * 2 ^ 64 + yn0) * (yn1 * 2 ^ 64 + yn0) := by
      have he : (a * 2 ^ 64 + w) / (yn1 * 2 ^ 64 + yn0) * yn1 * 2 ^ 64
          = (a * 2 ^ 64 + w) / (yn1 * 2 ^ 64 + yn0) * (yn1 * 2 ^ 64) := by ring
      rw [he]
      exact Nat.mul_le_mul_left _ (by omega)
    have ha2 : (a * 2 ^ 64 + w) / (yn1 * 2 ^ 64 + yn0) * yn1 * 2 ^ 64
        < (a + 1) * 2 ^ 64 := by
      have he2 : (a + 1) * 2 ^ 64 = a * 2 ^ 64 + 2 ^ 64 := by ring
      omega
    have ha3 : (a * 2 ^ 64 + w) / (yn1 * 2 ^ 64 + yn0) * yn1 < a + 1 :=
      lt_of_mul_lt_mul_right ha2 (Nat.zero_le _)
    exact (Nat.le_div_iff_mul_le hyn1).mpr (by omega)
  calc a * 2 ^ 64 + w
      < ((a * 2 ^ 64 + w) / (yn1 * 2 ^ 64 + yn0) + 1) * (yn1 * 2 ^ 64 + yn0) := h2
    _ ≤ (a / yn1 + 1) * (yn1 * 2 ^ 64 + yn0) := Nat.mul_le_mul_right _ (by omega)

theorem q_init_bound (yn1 yn0 a : Nat) (h63 : 2 ^ 63 ≤ yn1) (hyn0 : yn0 < 2 ^ 64)
    (ha : a < yn1 * 2 ^ 64 + yn0) : a / yn1 ≤ 2 ^ 64 + 1 := by
  by_contra hgt
  push_neg at hgt
  have h1 : (2 ^ 64 + 2) * yn1 ≤ a / yn1 * yn1 :=
    Nat.mul_le_mul_right _ (by omega)
  have h2 : a / yn1 * yn1 ≤ a := Nat.div_mul_le_self a yn1
  have h3 : (2 ^ 64 + 2) * yn1 = yn1 * 2 ^ 64 + 2 * yn1 := by ring
  omega

/-- Embedding of `u256_idiv_u128_special` from `fpdec-core/src/lib.rs`
(Knuth Algorithm D specialised to m = 4, n = 2, with `xh < y`).  The
`wrapping_*` calls of the source are embedded by `wmul`/`wadd`/`wsub`; the
two `while` loops are `q_hat_loop`.  The constant `B` of the source is
written `2 ^ 64`. -/
def u256_idiv_u128_special (xh xl y : Nat) : Nat × Nat × Nat :=
  let n_bits := 127 - u128_msb y
  let y' := (y <<< n_bits) % 2 ^ 128
  let yn1 := u128_hi y'
  let yn0 := u128_lo y'
  let sh := if n_bits = 0 then 0 else xl >>> (128 - n_bits)
  let xn32 := ((xh <<< n_bits) % 2 ^ 128) ||| sh
  let xn10 := (xl <<< n_bits) % 2 ^ 128
  let xn1 := u128_hi xn10
  let xn0 := u128_lo xn10
  let p1 := q_hat_loop yn1 yn0 xn1 (xn32 / yn1) (xn32 % yn1)
  let q1 := p1.1
  let t := wsub (wadd (wmul xn32 (2 ^ 64)) xn1) (wmul q1 y')
  let p0 := q_hat_loop yn1 yn0 xn0 (t / yn1) (t % yn1)
  let q0 := p0.1
  let r := wsub (wadd (wmul t (2 ^ 64)) xn0) (wmul q0 y') >>> n_bits
  (0, q1 * 2 ^ 64 + q0, r)

theorem q_digit_spec (yn1 yn0 a w : Nat)
    (hyn1lo : 2 ^ 63 ≤ yn1) (hyn1hi : yn1 < 2 ^ 64) (hyn0 : yn0 < 2 ^ 64)
    (hw : w < 2 ^ 64) (ha : a < yn1 * 2 ^ 64 + yn0) :
    (q_hat_loop yn1 yn0 w (a / yn1) (a % yn1)).1
      = (a * 2 ^ 64 + w) / (yn1 * 2 ^ 64 + yn0) := by
  apply q_hat_loop_spec yn1 yn0 w a hyn1lo hyn1hi hyn0 hw ha
  · rw [Nat.mul_comm (a / yn1) yn1]
    exact Nat.div_add_mod a yn1
  · exact q_init_upper yn1 yn0 a w (by omega) hw
  · exact q_init_bound yn1 yn0 a hyn1lo hyn0 ha

set_option maxHeartbeats 1000000 in
theorem u256_idiv_u128_special_spec (xh xl y : Nat) (hy : 2 ^ 64 ≤ y)
    (hy128 : y < 2 ^ 128) (hxh : xh < y) (hxl : xl < 2 ^ 128) :
    u256_idiv_u128_special xh xl y
      = (0, (xh * 2 ^ 128 + xl) / y, (xh * 2 ^ 128 + xl) % y) := by
  obtain ⟨hm1, hm2⟩ := u128_msb_spec y (by omega) hy128
  simp only [u256_idiv_u128_special, u128_hi_eq, u128_lo_eq, Nat.shiftLeft_eq,
    Nat.shiftRight_eq_div_pow]
  set m := u128_msb y with hmdef
  have hm64 : 64 ≤ m := by
    by_contra h
    push_neg at h
    have : 2 ^ (m + 1) ≤ 2 ^ 64 := Nat.pow_le_pow_right (by norm_num) (by omega)
    omega
  have hm127 : m ≤ 127 := by
    by_contra h
    push_neg at h
    have : 2 ^ 128 ≤ 2 ^ m := Nat.pow_le_pow_right (by norm_num) (by omega)
    omega
  set n := 127 - m with hndef
  have hn63 : n ≤ 63 := by omega
  have hy'lo : 2 ^ 127 ≤ y * 2 ^ n := by
    calc (2:Nat) ^ 127 = 2 ^ m * 2 ^ n := by rw [← pow_add]; congr 1; omega
      _ ≤ y * 2 ^ n := Nat.mul_le_mul_right _ hm1
  have hy'hi : y * 2 ^ n < 2 ^ 128 := by
    calc y * 2 ^ n < 2 ^ (m + 1) * 2 ^ n :=
          (Nat.mul_lt_mul_right (by positivity)).mpr hm2
      _ = 2 ^ 128 := by rw [← pow_add]; congr 1; omega
  rw [Nat.mod_eq_of_lt hy'hi]
  -- the shifted-out bits of `xl`
  have e2 : (if n = 0 then (0:Nat) else xl / 2 ^ (128 - n)) = xl / 2 ^ (128 - n) := by
    by_cases h0 : n = 0
    · rw [if_pos h0, h0, Nat.sub_zero]
      exact (Nat.div_eq_of_lt hxl).symm
    · rw [if_neg h0]
  rw [e2]
  have hxh2 : xh * 2 ^ n < 2 ^ 128 := by
    calc xh * 2 ^ n < y * 2 ^ n := (Nat.mul_lt_mul_right (by positivity)).mpr hxh
      _ < 2 ^ 128 := hy'hi
  rw [Nat.mod_eq_of_lt hxh2]
  have hshlt : xl / 2 ^ (128 - n) < 2 ^ n := by
    apply Nat.div_lt_of_lt_mul
    calc xl < 2 ^ 128 := hxl
      _ = 2 ^ (128 - n) * 2 ^ n := by rw [← pow_add]; congr 1; omega
  have e4 : xh * 2 ^ n ||| xl / 2 ^ (128 - n)
      = xh * 2 ^ n + xl / 2 ^ (128 - n) := by
    calc xh * 2 ^ n ||| xl / 2 ^ (128 - n)
        = 2 ^ n * xh ||| xl / 2 ^ (128 - n) := by rw [Nat.mul_comm xh (2 ^ n)]
      _ = 2 ^ n * xh + xl / 2 ^ (128 - n) := (Nat.mul_add_lt_is_or hshlt xh).symm
      _ = xh * 2 ^ n + xl / 2 ^ (128 - n) := by ring
  rw [e4]
  -- names for the normalized pieces (expressions, kept abstract below)
  set yn1 := y * 2 ^ n / 2 ^ 64 with hyn1def
  set yn0 := y * 2 ^ n % 2 ^ 64 with hyn0def
  set a1 := xh * 2 ^ n + xl / 2 ^ (128 - n) with ha1def
  set L := xl * 2 ^ n % 2 ^ 128 with hLdef
  set xn1 := L / 2 ^ 64 with hxn1def
  set xn0 := L % 2 ^ 64 with hxn0def
  have hyn1lo : 2 ^ 63 ≤ yn1 := by
    have h1 := Nat.div_le_div_right (c := 2 ^ 64) hy'lo
    have h2 : (2:Nat) ^ 127 / 2 ^ 64 = 2 ^ 63 := by norm_num
    omega
  have hyn1hi : yn1 < 2 ^ 64 := by
    rw [hyn1def]
    omega
  have hyn0lt : yn0 < 2 ^ 64 := by
    rw [hyn0def]
    omega
  have hv : yn1 * 2 ^ 64 + yn0 = y * 2 ^ n := by
    have := Nat.div_add_mod (y * 2 ^ n) (2 ^ 64)
    rw [hyn1def, hyn0def]
    omega
  have hLlt : L < 2 ^ 128 := by rw [hLdef]; omega
  have hxn1lt : xn1 < 2 ^ 64 := by rw [hxn1def]; omega
  have hxn0lt : xn0 < 2 ^ 64 := by rw [hxn0def]; omega
  have hLdm : xn1 * 2 ^ 64 + xn0 = L := by
    have := Nat.div_add_mod L (2 ^ 64)
    rw [hxn1def, hxn0def]
    omega
  -- decomposition of the normalized dividend
  have hXdecomp : (xh * 2 ^ 128 + xl) * 2 ^ n = a1 * 2 ^ 128 + L := by
    have hq : xl * 2 ^ n / 2 ^ 128 = xl / 2 ^ (128 - n) := by
      rw [show (2:Nat) ^ 128 = 2 ^ (128 - n) * 2 ^ n from by
        rw [← pow_add]; congr 1; omega]
      exact Nat.mul_div_mul_right _ _ (by positivity)
    have hdm := Nat.div_add_mod (xl * 2 ^ n) (2 ^ 128)
    have h1 : xl * 2 ^ n = xl / 2 ^ (128 - n) * 2 ^ 128 + L := by
      rw [hLdef, ← hq]
      omega
    calc (xh * 2 ^ 128 + xl) * 2 ^ n
        = xh * 2 ^ n * 2 ^ 128 + xl * 2 ^ n := by ring
      _ = xh * 2 ^ n * 2 ^ 128 + (xl / 2 ^ (128 - n) * 2 ^ 128 + L) := by
          rw [← h1]
      _ = a1 * 2 ^ 128 + L := by rw [ha1def]; ring
  have hXlt : (xh * 2 ^ 128 + xl) * 2 ^ n < y * 2 ^ n * 2 ^ 128 := by
    have h1 : xh * 2 ^ 128 + xl < y * 2 ^ 128 := by omega
    calc (xh * 2 ^ 128 + xl) * 2 ^ n < y * 2 ^ 128 * 2 ^ n :=
          (Nat.mul_lt_mul_right (by positivity)).mpr h1
      _ = y * 2 ^ n * 2 ^ 128 := by ring
  have ha1 : a1 < y * 2 ^ n := by
    by_contra hge
    push_neg at hge
    have h1 : y * 2 ^ n * 2 ^ 128 ≤ a1 * 2 ^ 128 := Nat.mul_le_mul_right _ hge
    omega
  have hvpos : 0 < y * 2 ^ n := by positivity
  -- first quotient digit
  have hq1 := q_digit_spec yn1 yn0 a1 xn1 hyn1lo hyn1hi hyn0lt hxn1lt
    (by rw [hv]; exact ha1)
  rw [hv] at hq1
  rw [hq1]
  -- the intermediate value `t` is the exact partial remainder
  have hu1q : (a1 * 2 ^ 64 + xn1) / (y * 2 ^ n) * (y * 2 ^ n)
      ≤ a1 * 2 ^ 64 + xn1 := Nat.div_mul_le_self _ _
  have hu1mod : a1 * 2 ^ 64 + xn1 - (a1 * 2 ^ 64 + xn1) / (y * 2 ^ n) * (y * 2 ^ n)
      = (a1 * 2 ^ 64 + xn1) % (y * 2 ^ n) := div_sub_mul_eq_mod _ _
  have hu1modlt : (a1 * 2 ^ 64 + xn1) % (y * 2 ^ n) < y * 2 ^ n :=
    Nat.mod_lt _ hvpos
  have ht : wsub (wadd (wmul a1 (2 ^ 64)) xn1)
      (wmul ((a1 * 2 ^ 64 + xn1) / (y * 2 ^ n)) (y * 2 ^ n))
      = (a1 * 2 ^ 64 + xn1) % (y * 2 ^ n) := by
    rw [wsub_wadd_wmul_exact _ _ _ _ _ (by exact hu1q) (by omega)]
    omega
  rw [ht]
  -- second quotient digit
  have hq0 := q_digit_spec yn1 yn0 ((a1 * 2 ^ 64 + xn1) % (y * 2 ^ n)) xn0
    hyn1lo hyn1hi hyn0lt hxn0lt (by rw [hv]; exact hu1modlt)
  rw [hv] at hq0
  rw [hq0]
  -- the final remainder before denormalization
  have hu2q : ((a1 * 2 ^ 64 + xn1) % (y * 2 ^ n) * 2 ^ 64 + xn0) / (y * 2 ^ n)
        * (y * 2 ^ n)
      ≤ (a1 * 2 ^ 64 + xn1) % (y * 2 ^ n) * 2 ^ 64 + xn0 := Nat.div_mul_le_self _ _
  have hu2mod : (a1 * 2 ^ 64 + xn1) % (y * 2 ^ n) * 2 ^ 64 + xn0 -
        ((a1 * 2 ^ 64 + xn1) % (y * 2 ^ n) * 2 ^ 64 + xn0) / (y * 2 ^ n)
          * (y * 2 ^ n)
      = ((a1 * 2 ^ 64 + xn1) % (y * 2 ^ n) * 2 ^ 64 + xn0) % (y * 2 ^ n) :=
    div_sub_mul_eq_mod _ _
  have hu2modlt : ((a1 * 2 ^ 64 + xn1) % (y * 2 ^ n) * 2 ^ 64 + xn0) % (y * 2 ^ n)
      < y * 2 ^ n := Nat.mod_lt _ hvpos
  have hr : wsub (wadd (wmul ((a1 * 2 ^ 64 + xn1) % (y * 2 ^ n)) (2 ^ 64)) xn0)
      (wmul (((a1 * 2 ^ 64 + xn1) % (y * 2 ^ n) * 2 ^ 64 + xn0) / (y * 2 ^ n))
        (y * 2 ^ n))
      = ((a1 * 2 ^ 64 + xn1) % (y * 2 ^ n) * 2 ^ 64 + xn0) % (y * 2 ^ n) := by
    rw [wsub_wadd_wmul_exact _ _ _ _ _ (by exact hu2q) (by omega)]
    omega
  rw [hr]
  -- assemble quotient and remainder of the normalized division
  have hXasm : (xh * 2 ^ 128 + xl) * 2 ^ n =
      ((a1 * 2 ^ 64 + xn1) % (y * 2 ^ n) * 2 ^ 64 + xn0) % (y * 2 ^ n) +
      ((a1 * 2 ^ 64 + xn1) / (y * 2 ^ n) * 2 ^ 64 +
        ((a1 * 2 ^ 64 + xn1) % (y * 2 ^ n) * 2 ^ 64 + xn0) / (y * 2 ^ n)) *
        (y * 2 ^ n) := by
    have hdm1 := Nat.div_add_mod (a1 * 2 ^ 64 + xn1) (y * 2 ^ n)
    have hdm2 := Nat.div_add_mod
      ((a1 * 2 ^ 64 + xn1) % (y * 2 ^ n) * 2 ^ 64 + xn0) (y * 2 ^ n)
    calc (xh * 2 ^ 128 + xl) * 2 ^ n
        = a1 * 2 ^ 128 + L := hXdecomp
      _ = (a1 * 2 ^ 64 + xn1) * 2 ^ 64 + xn0 := by rw [← hLdm]; ring
      _ = (y * 2 ^ n * ((a1 * 2 ^ 64 + xn1) / (y * 2 ^ n)) +
            (a1 * 2 ^ 64 + xn1) % (y * 2 ^ n)) * 2 ^ 64 + xn0 := by rw [hdm1]
      _ = y * 2 ^ n * ((a1 * 2 ^ 64 + xn1) / (y * 2 ^ n)) * 2 ^ 64 +
            ((a1 * 2 ^ 64 + xn1) % (y * 2 ^ n) * 2 ^ 64 + xn0) := by ring
      _ = y * 2 ^ n * ((a1 * 2 ^ 64 + xn1) / (y * 2 ^ n)) * 2 ^ 64 +
            (y * 2 ^ n *
              (((a1 * 2 ^ 64 + xn1) % (y * 2 ^ n) * 2 ^ 64 + xn0) / (y * 2 ^ n)) +
             ((a1 * 2 ^ 64 + xn1) % (y * 2 ^ n) * 2 ^ 64 + xn0) % (y * 2 ^ n)) := by
          rw [hdm2]
      _ = ((a1 * 2 ^ 64 + xn1) % (y * 2 ^ n) * 2 ^ 64 + xn0) % (y * 2 ^ n) +
            ((a1 * 2 ^ 64 + xn1) / (y * 2 ^ n) * 2 ^ 64 +
              ((a1 * 2 ^ 64 + xn1) % (y * 2 ^ n) * 2 ^ 64 + xn0) / (y * 2 ^ n)) *
              (y * 2 ^ n) := by ring
  have hdivX : (xh * 2 ^ 128 + xl) * 2 ^ n / (y * 2 ^ n)
      = (a1 * 2 ^ 64 + xn1) / (y * 2 ^ n) * 2 ^ 64 +
        ((a1 * 2 ^ 64 + xn1) % (y * 2 ^ n) * 2 ^ 64 + xn0) / (y * 2 ^ n) := by
    rw [hXasm, Nat.add_mul_div_right _ _ hvpos, Nat.div_eq_of_lt hu2modlt,
      Nat.zero_add]
  have hmodX : (xh * 2 ^ 128 + xl) * 2 ^ n % (y * 2 ^ n)
      = ((a1 * 2 ^ 64 + xn1) % (y * 2 ^ n) * 2 ^ 64 + xn0) % (y * 2 ^ n) := by
    rw [hXasm, Nat.add_mul_mod_self_right, Nat.mod_eq_of_lt hu2modlt]
  -- denormalize
  have hdiv_final : (xh * 2 ^ 128 + xl) * 2 ^ n / (y * 2 ^ n)
      = (xh * 2 ^ 128 + xl) / y := Nat.mul_div_mul_right _ _ (by positivity)
  have hmod_final : (xh * 2 ^ 128 + xl) * 2 ^ n % (y * 2 ^ n)
      = (xh * 2 ^ 128 + xl) % y * 2 ^ n := Nat.mul_mod_mul_right _ _ _
  have hQ : (a1 * 2 ^ 64 + xn1) / (y * 2 ^ n) * 2 ^ 64 +
        ((a1 * 2 ^ 64 + xn1) % (y * 2 ^ n) * 2 ^ 64 + xn0) / (y * 2 ^ n)
      = (xh * 2 ^ 128 + xl) / y := by
    rw [← hdivX, hdiv_final]
  have hR : ((a1 * 2 ^ 64 + xn1) % (y * 2 ^ n) * 2 ^ 64 + xn0) % (y * 2 ^ n)
        / 2 ^ n
      = (xh * 2 ^ 128 + xl) % y := by
    rw [← hmodX, hmod_final, Nat.mul_div_cancel _ (by positivity)]
  rw [hQ, hR]

/-- Embedding of `u256_idiv_u128` from `fpdec-core/src/lib.rs`: three-tier
dispatch on the divisor.  In the third tier the source calls the special
routine on `t = xh % y` in place of the high word and then sets
`xh /= y`. -/
def u256_idiv_u128 (xh xl y : Nat) : Option (Nat × Nat × Nat) :=
  if u128_hi y = 0 then u256_idiv_u64 xh xl (u128_lo y)
  else if xh < y then some (u256_idiv_u128_special xh xl y)
  else
    let t := xh % y
    let p := u256_idiv_u128_special t xl y
    some (xh / y, p.2.1, p.2.2)

theorem u256_idiv_u128_spec (xh xl y : Nat) (hxh : xh < 2 ^ 128)
    (hxl : xl < 2 ^ 128) (hy0 : 0 < y) (hy128 : y < 2 ^ 128) :
    ∃ qh ql, u256_idiv_u128 xh xl y =
        some (qh, ql, (xh * 2 ^ 128 + xl) % y) ∧
      qh * 2 ^ 128 + ql = (xh * 2 ^ 128 + xl) / y ∧
      qh < 2 ^ 128 ∧ ql < 2 ^ 128 := by
  by_cases hsmall : u128_hi y = 0
  · -- tier 1: divisor fits in 64 bits
    have hy64 : y < 2 ^ 64 := by
      rw [u128_hi_eq] at hsmall
      omega
    have hlo : u128_lo y = y := by
      rw [u128_lo_eq]
      exact Nat.mod_eq_of_lt hy64
    obtain ⟨qh, ql, heq, hq, hqh, hql⟩ := u256_idiv_u64_spec xh xl y hy0 hy64 hxh hxl
    refine ⟨qh, ql, ?_, hq, hqh, hql⟩
    rw [u256_idiv_u128, if_pos hsmall, hlo]
    exact heq
  · have hy64 : 2 ^ 64 ≤ y := by
      rw [u128_hi_eq] at hsmall
      omega
    by_cases hlt : xh < y
    · -- tier 2: high word already reduced
      have hs := u256_idiv_u128_special_spec xh xl y hy64 hy128 hlt hxl
      refine ⟨0, (xh * 2 ^ 128 + xl) / y, ?_, by omega, by omega, ?_⟩
      · rw [u256_idiv_u128, if_neg hsmall, if_pos hlt, hs]
      · have h1 : xh * 2 ^ 128 + xl < y * 2 ^ 128 := by omega
        have h2 : (xh * 2 ^ 128 + xl) / y < 2 ^ 128 :=
          Nat.div_lt_of_lt_mul (by omega)
        exact h2
    · -- tier 3: reduce the high word first
      push_neg at hlt
      have hmod : xh % y < y := Nat.mod_lt _ hy0
      have hs := u256_idiv_u128_special_spec (xh % y) xl y hy64 hy128 hmod hxl
      have hq' : (xh % y * 2 ^ 128 + xl) / y < 2 ^ 128 := by
        have h1 : xh % y * 2 ^ 128 + xl < y * 2 ^ 128 := by omega
        exact Nat.div_lt_of_lt_mul (by omega)
      have hdm := Nat.div_add_mod xh y
      have hdm2 := Nat.div_add_mod (xh % y * 2 ^ 128 + xl) y
      have hrem : (xh % y * 2 ^ 128 + xl) % y < y := Nat.mod_lt _ hy0
      have hX : xh * 2 ^ 128 + xl
          = (xh % y * 2 ^ 128 + xl) % y +
            (xh / y * 2 ^ 128 + (xh % y * 2 ^ 128 + xl) / y) * y := by
        calc xh * 2 ^ 128 + xl
            = (y * (xh / y) + xh % y) * 2 ^ 128 + xl := by rw [hdm]
          _ = y * (xh / y) * 2 ^ 128 + (xh % y * 2 ^ 128 + xl) := by ring
          _ = y * (xh / y) * 2 ^ 128 +
                (y * ((xh % y * 2 ^ 128 + xl) / y) +
                  (xh % y * 2 ^ 128 + xl) % y) := by rw [hdm2]
          _ = (xh % y * 2 ^ 128 + xl) % y +
                (xh / y * 2 ^ 128 + (xh % y * 2 ^ 128 + xl) / y) * y := by ring
      have hremeq : (xh % y * 2 ^ 128 + xl) % y = (xh * 2 ^ 128 + xl) % y := by
        conv_rhs => rw [hX]
        rw [Nat.add_mul_mod_self_right, Nat.mod_eq_of_lt hrem]
      have hsum : xh / y * 2 ^ 128 + (xh % y * 2 ^ 128 + xl) / y
          = (xh * 2 ^ 128 + xl) / y := by
        conv_rhs => rw [hX]
        rw [Nat.add_mul_div_right _ _ hy0, Nat.div_eq_of_lt hrem, Nat.zero_add]
      refine ⟨xh / y, (xh % y * 2 ^ 128 + xl) / y, ?_, hsum, ?_, hq'⟩
      · rw [u256_idiv_u128]
        rw [if_neg hsmall, if_neg (show ¬ xh < y from by omega)]
        show some (xh / y, (u256_idiv_u128_special (xh % y) xl y).2.1,
          (u256_idiv_u128_special (xh % y) xl y).2.2) = _
        rw [hs, ← hremeq]
      · exact lt_of_le_of_lt (Nat.div_le_self xh y) hxh

/-- C1: for every 256-bit dividend `(xh, xl)` and divisor `y ≠ 0`,
`u256_idiv_u128` returns the exact quotient `(xh*2^128 + xl) / y` in the
pair and the exact remainder `(xh*2^128 + xl) % y`, which is `< y`,
across all three dispatch tiers. -/
theorem u256_idiv_u128_correct (xh xl y : Nat)
    (hxh : xh < 2 ^ 128) (hxl : xl < 2 ^ 128) (hy : y ≠ 0)
    (hy128 : y < 2 ^ 128) :
    ∃ qh ql r, u256_idiv_u128 xh xl y = some (qh, ql, r) ∧
      qh * 2 ^ 128 + ql = (xh * 2 ^ 128 + xl) / y ∧
      r = (xh * 2 ^ 128 + xl) % y ∧ r < y := by
  have hy0 : 0 < y := Nat.pos_of_ne_zero hy
  obtain ⟨qh, ql, heq, hsum, h1, h2⟩ :=
    u256_idiv_u128_spec xh xl y hxh hxl hy0 hy128
  exact ⟨qh, ql, (xh * 2 ^ 128 + xl) % y, heq, hsum, rfl, Nat.mod_lt _ hy0⟩

theorem u256_idiv_u128_correct_witness :
    ((3:Nat) < 2 ^ 128 ∧ (7:Nat) < 2 ^ 128 ∧ (2 ^ 64 + 5 : Nat) ≠ 0 ∧
      (2 ^ 64 + 5 : Nat) < 2 ^ 128) ∧
    ∃ qh ql r, u256_idiv_u128 3 7 (2 ^ 64 + 5) = some (qh, ql, r) ∧
      qh * 2 ^ 128 + ql = (3 * 2 ^ 128 + 7) / (2 ^ 64 + 5) ∧
      r = (3 * 2 ^ 128 + 7) % (2 ^ 64 + 5) ∧ r < 2 ^ 64 + 5 :=
  ⟨⟨by norm_num, by norm_num, by norm_num, by norm_num⟩,
    u256_idiv_u128_correct 3 7 (2 ^ 64 + 5)
      (by norm_num) (by norm_num) (by norm_num) (by norm_num)⟩

/-- C6: `u128_mul_u128` returns the exact double-width product, and every
intermediate accumulator of the schoolbook computation (`t` after each of
its three assignments, and the final `rl`, `rh`) stays below `2 ^ 128`, so
the `u128` arithmetic of the source never wraps or panics. -/
theorem u128_mul_u128_correct (x y : Nat) (hx : x < 2 ^ 128)
    (hy : y < 2 ^ 128) :
    ((u128_mul_u128 x y).1 * 2 ^ 128 + (u128_mul_u128 x y).2 = x * y ∧
      (u128_mul_u128 x y).1 < 2 ^ 128 ∧ (u128_mul_u128 x y).2 < 2 ^ 128) ∧
    u128_lo x * u128_lo y < 2 ^ 128 ∧
    u128_lo x * u128_hi y + u128_hi (u128_lo x * u128_lo y) < 2 ^ 128 ∧
    u128_hi x * u128_lo y +
        u128_lo (u128_lo x * u128_hi y + u128_hi (u128_lo x * u128_lo y))
      < 2 ^ 128 ∧
    u128_lo (u128_lo x * u128_lo y) +
        u128_lo (u128_hi x * u128_lo y +
          u128_lo (u128_lo x * u128_hi y + u128_hi (u128_lo x * u128_lo y)))
          * 2 ^ 64
      < 2 ^ 128 ∧
    u128_hi (u128_lo x * u128_hi y + u128_hi (u128_lo x * u128_lo y)) +
        u128_hi x * u128_hi y +
        u128_hi (u128_hi x * u128_lo y +
          u128_lo (u128_lo x * u128_hi y + u128_hi (u128_lo x * u128_lo y)))
      < 2 ^ 128 := by
  refine ⟨u128_mul_u128_spec x y hx hy, ?_⟩
  simp only [u128_hi_eq, u128_lo_eq]
  have hxh : x / 2 ^ 64 < 2 ^ 64 := by omega
  have hyh : y / 2 ^ 64 < 2 ^ 64 := by omega
  have hxl : x % 2 ^ 64 < 2 ^ 64 := Nat.mod_lt _ (by norm_num)
  have hyl : y % 2 ^ 64 < 2 ^ 64 := Nat.mod_lt _ (by norm_num)
  have hA : (x / 2 ^ 64) * (y / 2 ^ 64) ≤ (2 ^ 64 - 1) * (2 ^ 64 - 1) :=
    Nat.mul_le_mul (by omega) (by omega)
  have hB : (x / 2 ^ 64) * (y % 2 ^ 64) ≤ (2 ^ 64 - 1) * (2 ^ 64 - 1) :=
    Nat.mul_le_mul (by omega) (by omega)
  have hC : (x % 2 ^ 64) * (y / 2 ^ 64) ≤ (2 ^ 64 - 1) * (2 ^ 64 - 1) :=
    Nat.mul_le_mul (by omega) (by omega)
  have hD : (x % 2 ^ 64) * (y % 2 ^ 64) ≤ (2 ^ 64 - 1) * (2 ^ 64 - 1) :=
    Nat.mul_le_mul (by omega) (by omega)
  generalize (x / 2 ^ 64) * (y / 2 ^ 64) = A at *
  generalize (x / 2 ^ 64) * (y % 2 ^ 64) = B at *
  generalize (x % 2 ^ 64) * (y / 2 ^ 64) = C at *
  generalize (x % 2 ^ 64) * (y % 2 ^ 64) = D at *
  omega

theorem u128_mul_u128_correct_witness :
    ((2:Nat) ^ 128 - 1 < 2 ^ 128 ∧ (2:Nat) ^ 128 - 1 < 2 ^ 128) ∧
    (u128_mul_u128 (2 ^ 128 - 1) (2 ^ 128 - 1)).1 * 2 ^ 128 +
        (u128_mul_u128 (2 ^ 128 - 1) (2 ^ 128 - 1)).2
      = (2 ^ 128 - 1) * (2 ^ 128 - 1) :=
  ⟨⟨by norm_num, by norm_num⟩,
    (u128_mul_u128_correct (2 ^ 128 - 1) (2 ^ 128 - 1)
      (by norm_num) (by norm_num)).1.1⟩

/-- Modelled from the spec: `ten_pow(n)` (module `powers_of_ten`, not part
of the provided sources) returns `10 ^ n` exactly via a precomputed table
for `n ∈ 0..=38`, as a signed 128-bit integer (the use in
`i128_shifted_div_mod_floor` casts it to `u128`).  Every claim below keeps
`n` within the table range. -/
def ten_pow (n : Nat) : Int := 10 ^ n

/-- Reduction of an integer into the `i128` value range, embedding the
wrapping two's-complement semantics of a `u128`/`i128` machine operation. -/
def i128_wrap (z : Int) : Int := (z + 2 ^ 127) % 2 ^ 128 - 2 ^ 127

/-- Embedding of `i128_div_mod_floor` from `fpdec-core/src/lib.rs`.  The
native Rust `/` and `%` are the truncating `Int.tdiv`/`Int.tmod`; `none`
embeds the panic on `y == 0` and on the overflowing division
`i128::MIN / -1`. -/
def i128_div_mod_floor (x y : Int) : Option (Int × Int) :=
  if y = 0 ∨ (x = -(2 ^ 127) ∧ y = -1) then none
  else
    let q := x.tdiv y
    let r := x.tmod y
    if (0 < r ∧ y < 0) ∨ (r < 0 ∧ 0 < y) then some (q - 1, r + y)
    else some (q, r)

/-- Embedding of `i128_shifted_div_mod_floor` from `fpdec-core/src/lib.rs`.
The outer `Option` layer embeds panics propagated from `u256_idiv_u128`
(zero divisor); the inner layer is the function's own `Option` result.
The subtraction `r -= y` of the source can leave the `i128` range, so it
is reduced by `i128_wrap`. -/
def i128_shifted_div_mod_floor (x : Int) (p : Nat) (y : Int) :
    Option (Option (Int × Int)) :=
  let xp := u128_mul_u128 x.natAbs (ten_pow p).toNat
  match u256_idiv_u128 xp.1 xp.2 y.natAbs with
  | none => none
  | some (xh, xl, r0) =>
    if xh ≠ 0 ∨ (2 ^ 127 - 1 : Nat) < xl then some none
    else
      let q : Int := (xl : Int)
      let r : Int := (r0 : Int)
      if x < 0 then
        if y < 0 then some (some (q, -r))
        else some (some (-q - 1, y - r))
      else if y < 0 then some (some (-q - 1, i128_wrap (r - y)))
      else some (some (q, r))

/-- Embedding of `i256_div_mod_floor` from `fpdec-core/src/lib.rs`.  The
source `debug_assert!(y > 0)`; with `y == 0` the wide division panics,
embedded as the outer `none`. -/
def i256_div_mod_floor (x1 x2 y : Int) : Option (Option (Int × Int)) :=
  let xp := u128_mul_u128 x1.natAbs x2.natAbs
  match u256_idiv_u128 xp.1 xp.2 y.natAbs with
  | none => none
  | some (xh, xl, r0) =>
    if xh ≠ 0 ∨ (2 ^ 127 - 1 : Nat) < xl then some none
    else
      let q : Int := (xl : Int)
      let r : Int := (r0 : Int)
      if decide (x1 < 0) ≠ decide (x2 < 0) then some (some (-q - 1, y - r))
      else some (some (q, r))

theorem natAbs_tmod_eq (a b : Int) : (a.tmod b).natAbs = a.natAbs % b.natAbs := by
  cases a <;> cases b <;>
      simp [Int.tmod, Int.natAbs_neg, Int.natAbs_ofNat, Nat.succ_eq_add_one] <;>
    norm_cast

theorem tmod_nonpos_of_nonpos (a b : Int) (h : a ≤ 0) : a.tmod b ≤ 0 := by
  cases a with
  | ofNat m =>
    rw [Int.ofNat_eq_coe] at h
    have hm : m = 0 := by omega
    subst hm
    cases b <;> simp [Int.tmod]
  | negSucc m =>
    cases b <;> simp [Int.tmod] <;> norm_cast <;> positivity

/-- C5 counterexample: at `x = i128::MIN`, `y = -1` the native truncating
division itself overflows and the operation traps instead of returning a
pair, so the claim fails as universally stated. -/
theorem i128_div_mod_floor_min_neg_one_cex :
    i128_div_mod_floor (-(2 ^ 127)) (-1) = none := by
  rw [i128_div_mod_floor, if_pos (Or.inr ⟨rfl, rfl⟩)]

/-- C5 amended: for `i128` operands with `y ≠ 0`, except the single input
`(i128::MIN, -1)` on which the native division traps,
`i128_div_mod_floor x y` returns `(q, r)` with `x = q*y + r`,
`|r| < |y|`, and `r` carrying the sign of `y` whenever non-zero. -/
theorem i128_div_mod_floor_correct (x y : Int)
    (hx1 : -(2 ^ 127) ≤ x) (hx2 : x < 2 ^ 127)
    (hy1 : -(2 ^ 127) ≤ y) (hy2 : y < 2 ^ 127)
    (hy : y ≠ 0) (hmin : ¬(x = -(2 ^ 127) ∧ y = -1)) :
    ∃ q r, i128_div_mod_floor x y = some (q, r) ∧
      x = q * y + r ∧ r.natAbs < y.natAbs ∧
      (r ≠ 0 → (0 < y → 0 < r) ∧ (y < 0 → r < 0)) := by
  have hyabs : 0 < y.natAbs := Int.natAbs_pos.mpr hy
  have h1 : y * x.tdiv y + x.tmod y = x := Int.tdiv_add_tmod x y
  have habs : (x.tmod y).natAbs = x.natAbs % y.natAbs := natAbs_tmod_eq x y
  have hrabs : (x.tmod y).natAbs < y.natAbs := by
    rw [habs]
    exact Nat.mod_lt _ hyabs
  rw [i128_div_mod_floor, if_neg (not_or.mpr ⟨hy, hmin⟩)]
  by_cases hc : (0 < x.tmod y ∧ y < 0) ∨ (x.tmod y < 0 ∧ 0 < y)
  · rw [if_pos hc]
    have hring : (x.tdiv y - 1) * y + (x.tmod y + y) = y * x.tdiv y + x.tmod y := by
      ring
    refine ⟨x.tdiv y - 1, x.tmod y + y, rfl, by omega, ?_, ?_⟩
    · rcases hc with ⟨hr, hy'⟩ | ⟨hr, hy'⟩ <;> omega
    · intro hr0
      rcases hc with ⟨hr, hy'⟩ | ⟨hr, hy'⟩ <;> exact ⟨by omega, by omega⟩
  · rw [if_neg hc]
    have hring : x.tdiv y * y = y * x.tdiv y := mul_comm _ _
    refine ⟨x.tdiv y, x.tmod y, rfl, by omega, hrabs, ?_⟩
    intro hr0
    refine ⟨fun hy' => ?_, fun hy' => ?_⟩
    · by_contra hle
      push_neg at hle
      exact hc (Or.inr ⟨by omega, hy'⟩)
    · by_contra hle
      push_neg at hle
      exact hc (Or.inl ⟨by omega, hy'⟩)

theorem i128_div_mod_floor_correct_witness :
    ((-(2 ^ 127) : Int) ≤ -7 ∧ (-7 : Int) < 2 ^ 127 ∧
      (-(2 ^ 127) : Int) ≤ 3 ∧ (3 : Int) < 2 ^ 127 ∧ (3 : Int) ≠ 0 ∧
      ¬((-7 : Int) = -(2 ^ 127) ∧ (3 : Int) = -1)) ∧
    ∃ q r, i128_div_mod_floor (-7) 3 = some (q, r) ∧
      (-7 : Int) = q * 3 + r ∧ r.natAbs < (3 : Int).natAbs ∧
      (r ≠ 0 → (0 < (3:Int) → 0 < r) ∧ ((3:Int) < 0 → r < 0)) :=
  ⟨⟨by norm_num, by norm_num, by norm_num, by norm_num, by norm_num,
      by norm_num⟩,
    i128_div_mod_floor_correct (-7) 3 (by norm_num) (by norm_num)
      (by norm_num) (by norm_num) (by norm_num) (by norm_num)⟩

theorem u256_idiv_u128_zero (a b : Nat) : u256_idiv_u128 a b 0 = none := by
  rw [u256_idiv_u128, if_pos (show u128_hi 0 = 0 from rfl)]
  show u256_idiv_u64 a b (u128_lo 0) = none
  rw [show u128_lo 0 = 0 from rfl, u256_idiv_u64]
  norm_num

/-- C7: every kernel division primitive traps on a zero divisor — the
embedded result is the `none` that models the Rust panic, for all
dividends and every `p ≤ 38`. -/
theorem zero_divisor_traps (x x1 x2 : Int) (p : Nat) (hp : p ≤ 38) :
    i128_div_mod_floor x 0 = none ∧
    i128_shifted_div_mod_floor x p 0 = none ∧
    i256_div_mod_floor x1 x2 0 = none := by
  refine ⟨?_, ?_, ?_⟩
  · rw [i128_div_mod_floor, if_pos (Or.inl rfl)]
  · rw [i128_shifted_div_mod_floor]
    simp only [Int.natAbs_zero, u256_idiv_u128_zero]
  · rw [i256_div_mod_floor]
    simp only [Int.natAbs_zero, u256_idiv_u128_zero]

theorem zero_divisor_traps_witness :
    ((3:Nat) ≤ 38) ∧
    (i128_div_mod_floor 5 0 = none ∧
      i128_shifted_div_mod_floor 5 3 0 = none ∧
      i256_div_mod_floor 2 7 0 = none) :=
  ⟨by norm_num, zero_divisor_traps 5 2 7 3 (by norm_num)⟩

set_option maxRecDepth 100000 in
/-- C2 is violated by the code: at `(x, p, y) = (7, 0, -2)` the function
returns `Some((-4, 3))`, but `-4 * -2 + 3 = 11 ≠ 7 = x * 10^p` and
`|r| = 3` is not `< |y| = 2` (nor does `r` carry the sign of `y`). -/
theorem i128_shifted_div_mod_floor_sign_bug :
    i128_shifted_div_mod_floor 7 0 (-2) = some (some (-4, 3)) ∧
    (-4 : Int) * (-2) + 3 ≠ 7 * ten_pow 0 ∧
    ¬ ((3 : Int).natAbs < (-2 : Int).natAbs) := by
  refine ⟨by decide, by decide, by decide⟩

set_option maxRecDepth 100000 in
/-- C3 is violated by the code: at `(x1, x2, y) = (-1, 1, 1)` the function
returns `Some((-2, 1))`, although the floor quotient of `-1 / 1` is `-1`
with remainder `0`; the returned pair violates `|r| < |y|`. -/
theorem i256_div_mod_floor_exact_neg_bug :
    i256_div_mod_floor (-1) 1 1 = some (some (-2, 1)) ∧
    Int.fdiv ((-1) * 1) 1 = -1 ∧
    ¬ ((1 : Int).natAbs < (1 : Int).natAbs) := by
  refine ⟨by decide, by decide, by decide⟩

set_option maxRecDepth 400000 in
/-- C4 counterexample: the claim's contract "None iff the magnitude of the
true floor quotient exceeds i128::MAX, and a Some result is never a
wrapped, truncated, or clamped value" fails in two ways.
(1) At `x1 = -(2^64 - 1)`, `x2 = 2^64 + 1`, `y = 2` the true floor
quotient is `-(2^127) = i128::MIN`, whose magnitude `2^127` exceeds
`i128::MAX = 2^127 - 1`, yet the operation returns `Some` (carrying that
exact, representable quotient) instead of the `None` the claim demands.
(2) At `x = 2^127 - 2`, `p = 0`, `y = -(2^127 - 1)` the operation returns
`Some((-1, -3))`: the floor remainder is `-1`, but the source's `r -= y`
computes `2^127 - 2 - y = 2^128 - 3`, which exceeds the `i128` range and
wraps to `-3` — a `Some` result carrying a wrapped value (a debug build
panics on this subtraction instead). -/
theorem div_mod_floor_overflow_claim_cex :
    (i256_div_mod_floor (-(2 ^ 64 - 1)) (2 ^ 64 + 1) 2
        = some (some (-(2 ^ 127), 1)) ∧
      Int.fdiv (-(2 ^ 64 - 1) * (2 ^ 64 + 1)) 2 = -(2 ^ 127) ∧
      (-(2 ^ 127) : Int).natAbs = 2 ^ 127 ∧
      (2 ^ 127 - 1 : Nat) < 2 ^ 127) ∧
    (i128_shifted_div_mod_floor (2 ^ 127 - 2) 0 (-(2 ^ 127 - 1))
        = some (some (-1, -3)) ∧
      (2 ^ 127 - 2 : Int) - (-1) * (-(2 ^ 127 - 1)) = -1 ∧
      (2 ^ 127 - 2 : Int) - (-(2 ^ 127 - 1)) = 2 ^ 128 - 3 ∧
      i128_wrap (2 ^ 128 - 3) = -3 ∧
      (2 ^ 127 - 1 : Int) < 2 ^ 128 - 3) := by
  refine ⟨⟨by decide, by decide, by decide, by decide⟩,
    ⟨by decide, by decide, by decide, by decide, by decide⟩⟩

/-- C4 amended: with divisor non-zero (resp. positive) and operands in the
`i128` range, the inner result is absent if and only if the floor of
`|x * 10^p| / |y|` (resp. `|x1 * x2| / |y|`) exceeds `i128::MAX`; there is
no other way to produce an absent inner result.  Both conjuncts of the
original claim fail, as `div_mod_floor_overflow_claim_cex` exhibits: this
magnitude test is not the claim's "magnitude of the true floor quotient
exceeds `i128::MAX`" (when the signs differ, the division is inexact and
the magnitude quotient equals `i128::MAX`, the code returns the
representable floor quotient `i128::MIN` as a `Some`), and the claim's
"a Some result is never a wrapped, truncated, or clamped value" is also
false of the code (the `r -= y` branch of `i128_shifted_div_mod_floor`
can wrap the remainder of a `Some`), so it is dropped rather than
amended. -/
theorem div_mod_floor_none_iff :
    (∀ (x : Int) (p : Nat) (y : Int), -(2 ^ 127) ≤ x → x < 2 ^ 127 →
      -(2 ^ 127) ≤ y → y < 2 ^ 127 → y ≠ 0 → p ≤ 38 →
      (i128_shifted_div_mod_floor x p y = some none ↔
        2 ^ 127 - 1 < x.natAbs * (ten_pow p).toNat / y.natAbs)) ∧
    (∀ x1 x2 y : Int, -(2 ^ 127) ≤ x1 → x1 < 2 ^ 127 →
      -(2 ^ 127) ≤ x2 → x2 < 2 ^ 127 → 0 < y → y < 2 ^ 127 →
      (i256_div_mod_floor x1 x2 y = some none ↔
        2 ^ 127 - 1 < x1.natAbs * x2.natAbs / y.natAbs)) := by
  constructor
  · intro x p y hx1 hx2 hy1 hy2 hy hp
    have hxa : x.natAbs < 2 ^ 128 := by omega
    have hcast : ((10:Int) ^ p) = ((10 ^ p : Nat) : Int) := by push_cast; ring
    have h1 : (ten_pow p).toNat = 10 ^ p := by
      rw [ten_pow, hcast, Int.toNat_natCast]
    have htp : (ten_pow p).toNat < 2 ^ 128 := by
      rw [h1]
      calc (10:Nat) ^ p ≤ 10 ^ 38 := Nat.pow_le_pow_right (by norm_num) hp
        _ < 2 ^ 128 := by norm_num
    have hy0 : 0 < y.natAbs := Int.natAbs_pos.mpr hy
    have hya : y.natAbs < 2 ^ 128 := by omega
    obtain ⟨hmul, hh1, hh2⟩ := u128_mul_u128_spec x.natAbs (ten_pow p).toNat hxa htp
    obtain ⟨qh, ql, heq, hsum, hqh, hql⟩ := u256_idiv_u128_spec
      (u128_mul_u128 x.natAbs (ten_pow p).toNat).1
      (u128_mul_u128 x.natAbs (ten_pow p).toNat).2 y.natAbs hh1 hh2 hy0 hya
    rw [hmul] at hsum
    simp only [i128_shifted_div_mod_floor, heq]
    by_cases hcond : qh ≠ 0 ∨ (2 ^ 127 - 1 : Nat) < ql
    · rw [if_pos hcond]
      have hgt : 2 ^ 127 - 1 < x.natAbs * (ten_pow p).toNat / y.natAbs := by
        rcases hcond with h | h
        · omega
        · omega
      exact ⟨fun _ => hgt, fun _ => rfl⟩
    · rw [if_neg hcond]
      push_neg at hcond
      obtain ⟨hq0, hqlle⟩ := hcond
      have hlt : ¬ (2 ^ 127 - 1 < x.natAbs * (ten_pow p).toNat / y.natAbs) := by
        push_neg
        omega
      constructor
      · intro hcontra
        exfalso
        by_cases hsx : x < 0 <;> by_cases hsy : y < 0 <;>
          simp [hsx, hsy] at hcontra
      · intro h
        exact absurd h hlt
  · intro x1 x2 y hx11 hx12 hx21 hx22 hy0' hy2
    have hx1a : x1.natAbs < 2 ^ 128 := by omega
    have hx2a : x2.natAbs < 2 ^ 128 := by omega
    have hy0 : 0 < y.natAbs := Int.natAbs_pos.mpr (by omega)
    have hya : y.natAbs < 2 ^ 128 := by omega
    obtain ⟨hmul, hh1, hh2⟩ := u128_mul_u128_spec x1.natAbs x2.natAbs hx1a hx2a
    obtain ⟨qh, ql, heq, hsum, hqh, hql⟩ := u256_idiv_u128_spec
      (u128_mul_u128 x1.natAbs x2.natAbs).1
      (u128_mul_u128 x1.natAbs x2.natAbs).2 y.natAbs hh1 hh2 hy0 hya
    rw [hmul] at hsum
    simp only [i256_div_mod_floor, heq]
    by_cases hcond : qh ≠ 0 ∨ (2 ^ 127 - 1 : Nat) < ql
    · rw [if_pos hcond]
      have hgt : 2 ^ 127 - 1 < x1.natAbs * x2.natAbs / y.natAbs := by
        rcases hcond with h | h
        · omega
        · omega
      exact ⟨fun _ => hgt, fun _ => rfl⟩
    · rw [if_neg hcond]
      push_neg at hcond
      obtain ⟨hq0, hqlle⟩ := hcond
      have hlt : ¬ (2 ^ 127 - 1 < x1.natAbs * x2.natAbs / y.natAbs) := by
        push_neg
        omega
      constructor
      · intro hcontra
        exfalso
        by_cases hs : decide (x1 < 0) ≠ decide (x2 < 0) <;>
          simp [hs] at hcontra
      · intro h
        exact absurd h hlt

theorem div_mod_floor_none_iff_witness :
    ((-(2 ^ 127) : Int) ≤ 3 ∧ (3:Int) < 2 ^ 127 ∧ (-(2 ^ 127):Int) ≤ 2 ∧
      (2:Int) < 2 ^ 127 ∧ (2:Int) ≠ 0 ∧ (1:Nat) ≤ 38 ∧
      (-(2 ^ 127) : Int) ≤ 5 ∧ (5:Int) < 2 ^ 127 ∧ (0:Int) < 2) ∧
    (i128_shifted_div_mod_floor 3 1 2 = some none ↔
      2 ^ 127 - 1 < (3:Int).natAbs * (ten_pow 1).toNat / (2:Int).natAbs) ∧
    (i256_div_mod_floor 3 5 2 = some none ↔
      2 ^ 127 - 1 < (3:Int).natAbs * (5:Int).natAbs / (2:Int).natAbs) :=
  ⟨⟨by norm_num, by norm_num, by norm_num, by norm_num, by norm_num,
      by norm_num, by norm_num, by norm_num, by norm_num⟩,
    div_mod_floor_none_iff.1 3 1 2 (by norm_num) (by norm_num) (by norm_num)
      (by norm_num) (by norm_num) (by norm_num),
    div_mod_floor_none_iff.2 3 5 2 (by norm_num) (by norm_num) (by norm_num)
      (by norm_num) (by norm_num) (by norm_num)⟩

/-- Modelled from the spec: the higher-level `Decimal` type (outside the
provided sources) — a signed 128-bit coefficient interpreted as
`coeff * 10 ^ (-n_frac_digits)`.  The field names are the ones used by
`src/into_int.rs`. -/
structure Decimal where
  coeff : Int
  n_frac_digits : Nat
deriving DecidableEq

/-- Modelled from the spec: the parser's closed error enumeration
(empty input, no digits found, malformed sign/exponent, scale exceeds
maximum).  `src/num_traits.rs` names the malformed case `Invalid`. -/
inductive ParseDecimalError where
  | Empty
  | NoDigits
  | Invalid
  | FracDigitLimitExceeded
deriving DecidableEq

/-- Embedding of `Num::from_str_radix` for `Decimal`
(`src/num_traits.rs`).  `Decimal::from_str` itself is external
collaborator code not in the provided sources, so the delegation target
is a parameter. -/
def from_str_radix (from_str : String → Except ParseDecimalError Decimal)
    (s : String) (radix : Nat) : Except ParseDecimalError Decimal :=
  if radix ≠ 10 then .error .Invalid
  else from_str s

/-- C8: `from_str_radix` rejects every radix other than ten with
`ParseDecimalError::Invalid` and otherwise returns exactly the result of
`from_str`, for every delegation target. -/
theorem from_str_radix_spec
    (fs : String → Except ParseDecimalError Decimal) (s : String)
    (radix : Nat) :
    from_str_radix fs s radix
      = if radix = 10 then fs s else .error .Invalid := by
  rw [from_str_radix]
  by_cases h : radix = 10 <;> simp [h]

/-- Modelled from the spec: `TryFromDecimalError` is declared in the main
crate outside the provided sources; the two variants are the ones named
in `src/into_int.rs`. -/
inductive TryFromDecimalError where
  | ValueOutOfRange
  | NotAnIntValue
deriving DecidableEq

/-- Embedding of `TryInto<i128>::try_into` for `Decimal`
(`src/into_int.rs`).  The native `%` and `/` on `i128` are the truncating
`Int.tmod`/`Int.tdiv`. -/
def try_into_i128 (d : Decimal) : Except TryFromDecimalError Int :=
  if d.n_frac_digits = 0 ∨ d.coeff = 0 then .ok d.coeff
  else
    let t := ten_pow d.n_frac_digits
    if d.coeff.tmod t = 0 then .ok (d.coeff.tdiv t)
    else .error .NotAnIntValue

/-- C9: for `n_frac_digits ≤ 18` the conversion never returns
`ValueOutOfRange`; it returns `Ok v` with `v * 10^n_frac_digits = coeff`
exactly when `10^n_frac_digits` divides `coeff` (in particular when
`n_frac_digits = 0` or `coeff = 0`), and `NotAnIntValue` otherwise. -/
theorem try_into_i128_spec (d : Decimal) (h : d.n_frac_digits ≤ 18) :
    try_into_i128 d ≠ .error .ValueOutOfRange ∧
    ((ten_pow d.n_frac_digits ∣ d.coeff) →
      ∃ v, try_into_i128 d = .ok v ∧ v * ten_pow d.n_frac_digits = d.coeff) ∧
    (¬ ten_pow d.n_frac_digits ∣ d.coeff →
      try_into_i128 d = .error .NotAnIntValue) := by
  rw [try_into_i128]
  by_cases h0 : d.n_frac_digits = 0 ∨ d.coeff = 0
  · rw [if_pos h0]
    refine ⟨by simp, fun hdvd => ⟨d.coeff, rfl, ?_⟩, fun hndvd => ?_⟩
    · rcases h0 with h0 | h0
      · simp [h0, ten_pow]
      · simp [h0]
    · exfalso
      apply hndvd
      rcases h0 with h0 | h0
      · simp [h0, ten_pow]
      · simp [h0]
  · rw [if_neg h0]
    have hiff : d.coeff.tmod (ten_pow d.n_frac_digits) = 0 ↔
        ten_pow d.n_frac_digits ∣ d.coeff :=
      Int.dvd_iff_tmod_eq_zero.symm
    by_cases hdvd : ten_pow d.n_frac_digits ∣ d.coeff
    · rw [if_pos (hiff.mpr hdvd)]
      exact ⟨by simp, fun _ =>
        ⟨d.coeff.tdiv (ten_pow d.n_frac_digits), rfl,
          Int.tdiv_mul_cancel hdvd⟩,
        fun hn => absurd hdvd hn⟩
    · rw [if_neg (fun hz => hdvd (hiff.mp hz))]
      exact ⟨by simp, fun hd => absurd hd hdvd, fun _ => rfl⟩

theorem try_into_i128_spec_witness :
    (Decimal.mk 2500 2).n_frac_digits ≤ 18 ∧
    (try_into_i128 ⟨2500, 2⟩ ≠ .error .ValueOutOfRange ∧
      ((ten_pow (Decimal.mk 2500 2).n_frac_digits ∣
          (Decimal.mk 2500 2).coeff) →
        ∃ v, try_into_i128 ⟨2500, 2⟩ = .ok v ∧
          v * ten_pow (Decimal.mk 2500 2).n_frac_digits
            = (Decimal.mk 2500 2).coeff) ∧
      (¬ ten_pow (Decimal.mk 2500 2).n_frac_digits ∣
          (Decimal.mk 2500 2).coeff →
        try_into_i128 ⟨2500, 2⟩ = .error .NotAnIntValue)) :=
  ⟨by norm_num, try_into_i128_spec ⟨2500, 2⟩ (by norm_num)⟩

/-- Modelled from the spec: `mul_pow_ten(x, n) = x * 10^n` under a
caller-established no-overflow precondition (module `powers_of_ten`,
outside the provided sources). -/
def mul_pow_ten (x : Int) (n : Nat) : Int := x * ten_pow n

/-- Embedding of `adjust_coeffs` from `fpdec-core/src/lib.rs`: rescale the
pair with the smaller scale up to the common scale.  The `match` on
`p.cmp(&q)` becomes the two nested comparisons. -/
def adjust_coeffs (x : Int) (p : Nat) (y : Int) (q : Nat) : Int × Int :=
  if p = q then (x, y)
  else if q < p then (x, mul_pow_ten y (p - q))
  else (mul_pow_ten x (q - p), y)

/-- Modelled from the spec: `Decimal::ZERO` (coefficient 0, scale 0). -/
def Decimal.ZERO : Decimal := ⟨0, 0⟩

/-- Modelled from the spec: the `PartialOrd` of the higher-level type
(outside the provided sources) compares the rational values
`coeff * 10 ^ (-n_frac_digits)`, i.e. the coefficients after bringing
both operands to a common scale. -/
def Decimal.le (a b : Decimal) : Bool :=
  decide (a.coeff * ten_pow b.n_frac_digits ≤ b.coeff * ten_pow a.n_frac_digits)

/-- Modelled from the spec: subtraction of the higher-level type, which
composes the kernel primitive `adjust_coeffs` (common scale, subtract
coefficients); it never reimplements the primitives. -/
def Decimal.sub (a b : Decimal) : Decimal :=
  let p := adjust_coeffs a.coeff a.n_frac_digits b.coeff b.n_frac_digits
  ⟨p.1 - p.2, max a.n_frac_digits b.n_frac_digits⟩

/-- Embedding of `Signed::abs_sub` for `Decimal` (`src/num_traits.rs`):
`if other <= self { Decimal::ZERO } else { *self - other }`. -/
def Decimal.abs_sub (a other : Decimal) : Decimal :=
  if Decimal.le other a then Decimal.ZERO else Decimal.sub a other

/-- C10 is violated by the code: with `a = 1 > b = 0` the claim demands
`a - b = 1` but the code returns `ZERO`, and with `a = 0 < b = 1` the
code returns the negative value `-1` (the claim demands `ZERO`): the
comparison in the source is inverted. -/
theorem abs_sub_bug :
    Decimal.abs_sub ⟨1, 0⟩ ⟨0, 0⟩ = Decimal.ZERO ∧
    Decimal.sub ⟨1, 0⟩ ⟨0, 0⟩ = ⟨1, 0⟩ ∧
    Decimal.abs_sub ⟨0, 0⟩ ⟨1, 0⟩ = ⟨-1, 0⟩ ∧
    (Decimal.mk (-1) 0).coeff < 0 := by
  refine ⟨by decide, by decide, by decide, by decide⟩
